import Mathlib

open List

/-!
Shallow embedding of the collaborative-canvas server core
(`src/server/drawing-state.js` and `src/server/server.js`).

JavaScript `Map` objects are modelled as association lists
(`List (String × α)`) with JS `Map` semantics: `get` finds the first
binding, `set` overwrites in place or appends, `delete` removes the
binding.  JS arrays become `List`s; `push` appends at the tail and
`pop` removes the tail element.
-/

namespace Canvas

/-- JS `Map.get`: first binding for the key, if any. -/
def mget {α : Type} (m : List (String × α)) (k : String) : Option α :=
  (m.find? (fun p => decide (p.1 = k))).map Prod.snd

/-- Lookup with a default value. -/
def mgetD {α : Type} (m : List (String × α)) (k : String) (d : α) : α :=
  (mget m k).getD d

/-- JS `Map.set`: overwrite the binding in place if present, else append. -/
def mset {α : Type} : List (String × α) → String → α → List (String × α)
  | [], k, v => [(k, v)]
  | p :: rest, k, v => if p.1 = k then (k, v) :: rest else p :: mset rest k v

/-- JS `Map.delete`: remove the binding for the key. -/
def mdelete {α : Type} (m : List (String × α)) (k : String) : List (String × α) :=
  m.filter (fun p => !decide (p.1 = k))

/-- One drawing operation, as built by the `draw` handler in
`server.js`: `{ type, userId, x0, y0, x1, y1, color, width, timestamp }`.
The numeric payload is never computed with in the core, so coordinates
are carried as integers. -/
structure Operation where
  type : String
  userId : String
  x0 : Int
  y0 : Int
  x1 : Int
  y1 : Int
  color : String
  width : Int
  timestamp : Nat
deriving DecidableEq, Repr

/-- The `DrawingState` class of `drawing-state.js`: a history array and the
per-user redo stacks map `userId -> [operations]`. -/
structure DrawingState where
  history : List Operation
  userRedoStacks : List (String × List Operation)
deriving DecidableEq, Repr

/-- The constructor `new DrawingState()`. -/
def DrawingState.init : DrawingState := ⟨[], []⟩

/-- Method `addOperation`: push onto `history`, delete the author's redo stack. -/
def addOperation (s : DrawingState) (operation : Operation) : DrawingState :=
  { history := s.history ++ [operation]
    userRedoStacks := mdelete s.userRedoStacks operation.userId }

/-- Method `getHistory`: a copy of `history` in current order. -/
def getHistory (s : DrawingState) : List Operation :=
  s.history

/-- The backward scan of `undoUserOperation`: remove the operation with
matching `userId` at the greatest index, if any, returning it together
with the remaining history.  A match in the tail takes precedence over
a match at the head. -/
def removeLastBy : List Operation → String → Option (Operation × List Operation)
  | [], _ => none
  | op :: rest, u =>
    match removeLastBy rest u with
    | some (o, rest') => some (o, op :: rest')
    | none => if op.userId = u then some (op, rest) else none

/-- Method `undoUserOperation`: splice out the last operation by `userId` from
`history` and push it onto that user's redo stack; report whether one
was found. -/
def undoUserOperation (s : DrawingState) (userId : String) : DrawingState × Bool :=
  match removeLastBy s.history userId with
  | some (operation, rest) =>
      ({ history := rest
         userRedoStacks :=
           mset s.userRedoStacks userId
             (mgetD s.userRedoStacks userId [] ++ [operation]) }, true)
  | none => (s, false)

/-- Method `redoUserOperation`: pop the tail of the user's redo stack (if
non-empty) and push it onto `history`; report whether anything was
restored. -/
def redoUserOperation (s : DrawingState) (userId : String) : DrawingState × Bool :=
  match (mgetD s.userRedoStacks userId []).getLast? with
  | some operation =>
      ({ history := s.history ++ [operation]
         userRedoStacks :=
           mset s.userRedoStacks userId
             (mgetD s.userRedoStacks userId []).dropLast }, true)
  | none => (s, false)

/-- Method `clear`: empty the history and all redo stacks. -/
def clearState (_s : DrawingState) : DrawingState :=
  { history := [], userRedoStacks := [] }

/-- Observation of a user's redo stack (absent key reads as empty). -/
def redoStackOf (s : DrawingState) (userId : String) : List Operation :=
  mgetD s.userRedoStacks userId []

/-- Example operation by user `"A"` (the spec's scenario stroke). -/
def opA : Operation := ⟨"draw", "A", 0, 0, 5, 5, "#FF0000", 3, 0⟩

/-- Example operation by user `"B"`. -/
def opB : Operation := ⟨"draw", "B", 10, 10, 15, 15, "#0000FF", 2, 1⟩

/-- Example operation by user `"C"`. -/
def opC : Operation := ⟨"draw", "C", 1, 2, 3, 4, "#00FF00", 1, 2⟩

/-- One log mutation, for stating properties of operation sequences. -/
inductive LogAction where
  | append (op : Operation)
  | undo (u : String)
  | redo (u : String)
  | clear
deriving DecidableEq, Repr

/-- State transition of one `LogAction` on a `DrawingState`. -/
def applyAction (s : DrawingState) : LogAction → DrawingState
  | .append op => addOperation s op
  | .undo u => (undoUserOperation s u).1
  | .redo u => (redoUserOperation s u).1
  | .clear => clearState s

/-- Replay a sequence of actions from a state. -/
def runActions (s : DrawingState) (acts : List LogAction) : DrawingState :=
  acts.foldl applyAction s

/-- All operations stored in a redo-stack map, in map order. -/
def mvals (m : List (String × List Operation)) : List Operation :=
  (m.map Prod.snd).flatten

/-- Every operation held anywhere in the log: the history together with
the contents of all redo stacks. -/
def allOps (s : DrawingState) : List Operation :=
  s.history ++ mvals s.userRedoStacks

/-- A trace is fresh when each appended operation is not already present
anywhere in the log at the moment of its append. -/
def freshTrace : DrawingState → List LogAction → Bool
  | _, [] => true
  | s, a :: rest =>
    (match a with
     | .append op => decide (op ∉ allOps s)
     | _ => true) && freshTrace (applyAction s a) rest

/-- The redo-stack keys of a state, in map order. -/
def stackKeys (s : DrawingState) : List String :=
  s.userRedoStacks.map Prod.fst

/-- Well-formedness maintained by every log mutation: no operation is
stored twice anywhere, and the redo map binds each user at most once. -/
def StateOk (s : DrawingState) : Prop :=
  (allOps s).Nodup ∧ (stackKeys s).Nodup

/-- One record of a room's `users` map (`{ socketId, name }`). -/
structure UserEntry where
  socketId : String
  name : String
deriving DecidableEq, Repr

/-- The `Room` class of `server.js`: a `users` map, a `cursorPositions` map and
one `DrawingState`.  The `roomId` itself is the registry key. -/
structure RoomState where
  users : List (String × UserEntry)
  cursorPositions : List (String × (Int × Int))
  drawingState : DrawingState
deriving DecidableEq, Repr

/-- The constructor `new Room(roomId)`. -/
def RoomState.init : RoomState := ⟨[], [], DrawingState.init⟩

/-- A `{userId, name, color}` record of broadcast payloads; the color
is read from the global `userColors` map and may be undefined. -/
structure UserView where
  userId : String
  name : String
  color : Option String
deriving DecidableEq, Repr

/-- Process-wide server state: the `rooms` registry and the global
`userColors` map. -/
structure ServerState where
  rooms : List (String × RoomState)
  userColors : List (String × String)
deriving DecidableEq, Repr

/-- The server's state at startup: no rooms, no colors. -/
def ServerState.init : ServerState := ⟨[], []⟩

/-- The fixed palette of the `join-room` handler. -/
def colors : List String :=
  ["#FF6B6B", "#4ECDC4", "#45B7D1", "#FFA07A", "#98D8C8", "#F7DC6F",
   "#BB8FCE", "#85C1E2"]

/-- Outbound socket messages, tagged with their destination. -/
inductive OutMsg where
  | drawingHistoryJoin (toSocket : String) (operations : List Operation)
      (userId : String) (color : Option String) (users : List UserView)
  | userJoined (roomId userId userName : String) (color : Option String)
      (users : List UserView)
  | newDrawOperation (roomId userId : String) (x0 y0 x1 y1 : Int)
      (color : String) (width : Int)
  | userCursors (roomId : String) (cursors : List (String × Int × Int))
      (users : List UserView)
  | drawingHistoryUpdate (roomId : String) (operations : List Operation)
      (isUndoRedo isCleared : Bool)
  | userLeft (roomId userId : String) (users : List UserView)
deriving DecidableEq, Repr

/-- The registry after the `join-room` handler's get-or-create step. -/
def roomsWithRoom (st : ServerState) (roomId : String) : List (String × RoomState) :=
  if (mget st.rooms roomId).isSome then st.rooms
  else mset st.rooms roomId RoomState.init

/-- The addressed room after `room.addUser(userId, socket.id, userName)`. -/
def joinedRoom (st : ServerState) (socketId roomId userId userName : String) :
    RoomState :=
  let room := mgetD (roomsWithRoom st roomId) roomId RoomState.init
  { room with users := mset room.users userId ⟨socketId, userName⟩ }

/-- The `usersWithColors` payload: every user entry with its color from
the global `userColors` map. -/
def usersWithColors (users : List (String × UserEntry))
    (userColors : List (String × String)) : List UserView :=
  users.map (fun p => ⟨p.1, p.2.name, mget userColors p.1⟩)

/-- The `join-room` handler. -/
def handleJoinRoom (st : ServerState) (socketId roomId userId userName : String) :
    ServerState × List OutMsg :=
  let room' := joinedRoom st socketId roomId userId userName
  let colorIndex := room'.users.length % colors.length
  let userColors' := mset st.userColors userId (colors.getD colorIndex "")
  let uwc := usersWithColors room'.users userColors'
  ({ rooms := mset (roomsWithRoom st roomId) roomId room'
     userColors := userColors' },
   [OutMsg.drawingHistoryJoin socketId (getHistory room'.drawingState) userId
      (mget userColors' userId) uwc,
    OutMsg.userJoined roomId userId userName (mget userColors' userId) uwc])

/-- The `draw` handler; `now` stands for `Date.now()`.  The broadcast is
emitted unconditionally, outside the room-existence check. -/
def handleDraw (st : ServerState) (roomId userId : String)
    (x0 y0 x1 y1 : Int) (color : String) (width : Int) (now : Nat) :
    ServerState × List OutMsg :=
  let st' :=
    match mget st.rooms roomId with
    | some room =>
        let op : Operation := ⟨"draw", userId, x0, y0, x1, y1, color, width, now⟩
        let room' := { room with drawingState := addOperation room.drawingState op }
        { st with rooms := mset st.rooms roomId room' }
    | none => st
  (st', [OutMsg.newDrawOperation roomId userId x0 y0 x1 y1 color width])

/-- Method `room.getCursors()`: the cursor map as a list of records. -/
def getCursors (room : RoomState) : List (String × Int × Int) :=
  room.cursorPositions.map (fun p => (p.1, p.2.1, p.2.2))

/-- The `cursor-move` handler. -/
def handleCursorMove (st : ServerState) (roomId userId : String) (x y : Int) :
    ServerState × List OutMsg :=
  match mget st.rooms roomId with
  | some room =>
      let room' :=
        { room with cursorPositions := mset room.cursorPositions userId (x, y) }
      ({ st with rooms := mset st.rooms roomId room' },
       [OutMsg.userCursors roomId (getCursors room')
          (usersWithColors room'.users st.userColors)])
  | none => (st, [])

/-- The `request-undo` handler. -/
def handleRequestUndo (st : ServerState) (roomId userId : String) :
    ServerState × List OutMsg :=
  match mget st.rooms roomId with
  | some room =>
      let room' :=
        { room with drawingState := (undoUserOperation room.drawingState userId).1 }
      ({ st with rooms := mset st.rooms roomId room' },
       [OutMsg.drawingHistoryUpdate roomId (getHistory room'.drawingState) true false])
  | none => (st, [])

/-- The `request-redo` handler. -/
def handleRequestRedo (st : ServerState) (roomId userId : String) :
    ServerState × List OutMsg :=
  match mget st.rooms roomId with
  | some room =>
      let room' :=
        { room with drawingState := (redoUserOperation room.drawingState userId).1 }
      ({ st with rooms := mset st.rooms roomId room' },
       [OutMsg.drawingHistoryUpdate roomId (getHistory room'.drawingState) true false])
  | none => (st, [])

/-- The `clear-canvas` handler. -/
def handleClearCanvas (st : ServerState) (roomId : String) :
    ServerState × List OutMsg :=
  match mget st.rooms roomId with
  | some room =>
      let room' := { room with drawingState := clearState room.drawingState }
      ({ st with rooms := mset st.rooms roomId room' },
       [OutMsg.drawingHistoryUpdate roomId [] false true])
  | none => (st, [])

/-- The outcome of the `disconnect` handler on one room: remove the
user whose `socketId` matches (if any, together with the cursor entry)
and drop the room when its `users` map becomes empty. -/
def roomAfterDisconnect (socketId : String) (room : RoomState) : Option RoomState :=
  match room.users.find? (fun p => decide (p.2.socketId = socketId)) with
  | some u =>
      let room' : RoomState :=
        { users := mdelete room.users u.1
          cursorPositions := mdelete room.cursorPositions u.1
          drawingState := room.drawingState }
      if room'.users.length = 0 then none else some room'
  | none => some room

/-- The `roomAfterDisconnect` outcome keyed under the room's registry key. -/
def disconnectRoomEntry (socketId : String) (entry : String × RoomState) :
    Option (String × RoomState) :=
  (roomAfterDisconnect socketId entry.2).map (fun r => (entry.1, r))

/-- One iteration of the `disconnect` handler's `rooms.forEach` body,
threading the surviving rooms, the global `userColors` map and the
emitted messages. -/
def disconnectStep (socketId : String)
    (acc : List (String × RoomState) × List (String × String) × List OutMsg)
    (entry : String × RoomState) :
    List (String × RoomState) × List (String × String) × List OutMsg :=
  match entry.2.users.find? (fun p => decide (p.2.socketId = socketId)) with
  | some u =>
      let room' : RoomState :=
        { users := mdelete entry.2.users u.1
          cursorPositions := mdelete entry.2.cursorPositions u.1
          drawingState := entry.2.drawingState }
      let colors' := mdelete acc.2.1 u.1
      let msgs' := acc.2.2 ++
        [OutMsg.userLeft entry.1 u.1 (usersWithColors room'.users colors')]
      (if room'.users.length = 0 then acc.1 else acc.1 ++ [(entry.1, room')],
       colors', msgs')
  | none => (acc.1 ++ [entry], acc.2.1, acc.2.2)

/-- The `disconnect` handler. -/
def handleDisconnect (st : ServerState) (socketId : String) :
    ServerState × List OutMsg :=
  let r := st.rooms.foldl (disconnectStep socketId) ([], st.userColors, [])
  (⟨r.1, r.2.1⟩, r.2.2)

/-- A room with its drawing state replaced (users and cursors kept). -/
def roomWithDS (room : RoomState) (ds : DrawingState) : RoomState :=
  { room with drawingState := ds }

/-- Membership observation: the `users`-map entry of `userId` in room
`roomId`, when both exist. -/
def userLookup (rooms : List (String × RoomState)) (roomId userId : String) :
    Option UserEntry :=
  (mget rooms roomId).bind (fun r => mget r.users userId)

/-- Concrete room for the C8 counterexample: user `"B"` is the only
member, but the history holds an operation by the departed user `"A"`. -/
def c8Room : RoomState := ⟨[("B", ⟨"sock2", "Bob"⟩)], [], ⟨[opA], []⟩⟩

/-- Concrete server state for the C8 counterexample. -/
def c8State : ServerState := ⟨[("r", c8Room)], []⟩

/-- Concrete server state for the C10 witness: one room `"A"` with one
member. -/
def c10State : ServerState :=
  ⟨[("A", ⟨[("alice", ⟨"sock1", "Alice"⟩)], [("alice", (1, 2))], ⟨[opA], []⟩⟩)],
   [("alice", "#4ECDC4")]⟩

@[simp] theorem mget_nil {α : Type} (k : String) : mget ([] : List (String × α)) k = none := rfl

@[simp] theorem mget_cons {α : Type} (p : String × α) (m : List (String × α)) (k : String) :
    mget (p :: m) k = if p.1 = k then some p.2 else mget m k := by
  by_cases h : p.1 = k <;> simp [mget, List.find?, h]

@[simp] theorem mget_mset_self {α : Type} (m : List (String × α)) (k : String) (v : α) :
    mget (mset m k v) k = some v := by
  induction m with
  | nil => simp [mset]
  | cons p rest ih =>
    by_cases h : p.1 = k <;> simp [mset, h, ih]

theorem mget_mset_ne {α : Type} (m : List (String × α)) (k k' : String) (v : α)
    (h : k' ≠ k) : mget (mset m k v) k' = mget m k' := by
  have hkk : ¬(k = k') := fun hh => h hh.symm
  induction m with
  | nil => simp [mset, hkk]
  | cons p rest ih =>
    by_cases hp : p.1 = k
    · subst hp
      simp [mset, hkk]
    · simp [mset, hp, ih]

@[simp] theorem mget_mdelete_self {α : Type} (m : List (String × α)) (k : String) :
    mget (mdelete m k) k = none := by
  induction m with
  | nil => rfl
  | cons p rest ih =>
    by_cases h : p.1 = k <;> simp [mdelete, List.filter, h, ih] <;>
      simpa [mdelete] using ih

theorem mget_mdelete_ne {α : Type} (m : List (String × α)) (k k' : String)
    (h : k' ≠ k) : mget (mdelete m k) k' = mget m k' := by
  induction m with
  | nil => rfl
  | cons p rest ih =>
    by_cases hp : p.1 = k
    · subst hp
      have hpk : ¬(p.1 = k') := fun hh => h hh.symm
      simp only [mdelete, List.filter_cons] at *
      simp [hpk, ih]
    · simp only [mdelete, List.filter_cons] at *
      by_cases hp' : p.1 = k' <;> simp [hp, hp', h, ih]

theorem removeLastBy_none : ∀ (l : List Operation) (u : String),
    removeLastBy l u = none → ∀ o ∈ l, o.userId ≠ u := by
  intro l u
  induction l with
  | nil => intro _ o ho; simp at ho
  | cons op rest ih =>
    intro h o ho
    rw [removeLastBy] at h
    cases hr : removeLastBy rest u with
    | some p => rw [hr] at h; simp at h
    | none =>
      rw [hr] at h
      by_cases hu : op.userId = u
      · simp [hu] at h
      · rcases List.mem_cons.mp ho with rfl | hmem
        · exact hu
        · exact ih hr o hmem

theorem removeLastBy_some : ∀ (l : List Operation) (u : String) (op : Operation)
    (rest : List Operation), removeLastBy l u = some (op, rest) →
    ∃ l₁ l₂, l = l₁ ++ op :: l₂ ∧ rest = l₁ ++ l₂ ∧ op.userId = u ∧
      ∀ o ∈ l₂, o.userId ≠ u := by
  intro l u
  induction l with
  | nil => intro op rest h; simp [removeLastBy] at h
  | cons a tail ih =>
    intro op rest h
    rw [removeLastBy] at h
    cases hr : removeLastBy tail u with
    | some p =>
      obtain ⟨p1, p2⟩ := p
      rw [hr] at h
      simp only [Option.some.injEq, Prod.mk.injEq] at h
      obtain ⟨rfl, rfl⟩ := h
      obtain ⟨l₁, l₂, he, hrest, hu, hl₂⟩ := ih p1 p2 hr
      exact ⟨a :: l₁, l₂, by simp [he], by simp [hrest], hu, hl₂⟩
    | none =>
      rw [hr] at h
      by_cases hu : a.userId = u
      · simp only [hu, if_pos, Option.some.injEq, Prod.mk.injEq] at h
        obtain ⟨rfl, rfl⟩ := h
        exact ⟨[], tail, rfl, rfl, hu, removeLastBy_none tail u hr⟩
      · simp [hu] at h

/-- C1: if `history` contains an operation by user `U`, then
`undoUserOperation U` returns `true`, removes exactly the last
(greatest-index) operation by `U` while preserving the relative order of
all other operations, and pushes the removed operation onto `U`'s redo
stack. -/
theorem undo_removes_last_of_user (s : DrawingState) (U : String)
    (h : ∃ op ∈ s.history, op.userId = U) :
    (undoUserOperation s U).2 = true ∧
    ∃ l₁ op l₂,
      s.history = l₁ ++ op :: l₂ ∧ op.userId = U ∧ (∀ o ∈ l₂, o.userId ≠ U) ∧
      (undoUserOperation s U).1.history = l₁ ++ l₂ ∧
      redoStackOf (undoUserOperation s U).1 U = redoStackOf s U ++ [op] := by
  cases hr : removeLastBy s.history U with
  | none =>
    obtain ⟨op, hmem, hu⟩ := h
    exact absurd hu (removeLastBy_none s.history U hr op hmem)
  | some pr =>
    obtain ⟨op, rest⟩ := pr
    obtain ⟨l₁, l₂, he, hrest, hu, hl₂⟩ := removeLastBy_some s.history U op rest hr
    refine ⟨by simp [undoUserOperation, hr], l₁, op, l₂, he, hu, hl₂, ?_, ?_⟩
    · simp [undoUserOperation, hr, hrest]
    · simp [undoUserOperation, hr, redoStackOf, mgetD, mget_mset_self]

theorem undo_removes_last_of_user_witness :
    (undoUserOperation ⟨[opA, opB, opC], []⟩ "A").2 = true ∧
    (undoUserOperation ⟨[opA, opB, opC], []⟩ "A").1.history = [opB, opC] :=
  ⟨(undo_removes_last_of_user ⟨[opA, opB, opC], []⟩ "A"
      ⟨opA, by decide, by decide⟩).1, by decide⟩

theorem undoUserOperation_noop (s : DrawingState) (U : String)
    (h : ∀ op ∈ s.history, op.userId ≠ U) :
    undoUserOperation s U = (s, false) := by
  cases hr : removeLastBy s.history U with
  | none => simp [undoUserOperation, hr]
  | some pr =>
    obtain ⟨op, rest⟩ := pr
    obtain ⟨l₁, l₂, he, _, hu, _⟩ := removeLastBy_some s.history U op rest hr
    exact absurd hu
      (h op (he ▸ List.mem_append.mpr (Or.inr (List.mem_cons_self op l₂))))

theorem redoUserOperation_noop (s : DrawingState) (U : String)
    (h : redoStackOf s U = []) : redoUserOperation s U = (s, false) := by
  unfold redoStackOf at h
  simp [redoUserOperation, h]

/-- C5: if `history` contains no operation by user `U`, then
`undoUserOperation U` returns `false` and the whole state (history and
every redo stack) is unchanged. -/
theorem undo_without_user_ops_is_noop (s : DrawingState) (U : String)
    (h : ∀ op ∈ s.history, op.userId ≠ U) :
    undoUserOperation s U = (s, false) :=
  undoUserOperation_noop s U h

theorem undo_without_user_ops_is_noop_witness :
    undoUserOperation ⟨[opB, opC], [("A", [opA])]⟩ "A" =
      (⟨[opB, opC], [("A", [opA])]⟩, false) :=
  undo_without_user_ops_is_noop ⟨[opB, opC], [("A", [opA])]⟩ "A" (by decide)

/-- C2: if `U`'s redo stack is non-empty, `redoUserOperation U` pops
its last element, appends it at the tail of `history`, leaves every
other user's redo stack unchanged and returns `true`; if the stack is
empty or absent, it returns `false` and changes nothing. -/
theorem redo_appends_at_tail (s : DrawingState) (U : String) :
    (redoStackOf s U ≠ [] →
      (redoUserOperation s U).2 = true ∧
      ∃ op, (redoStackOf s U).getLast? = some op ∧
        (redoUserOperation s U).1.history = s.history ++ [op] ∧
        redoStackOf (redoUserOperation s U).1 U = (redoStackOf s U).dropLast ∧
        ∀ V, V ≠ U → redoStackOf (redoUserOperation s U).1 V = redoStackOf s V) ∧
    (redoStackOf s U = [] → redoUserOperation s U = (s, false)) := by
  constructor
  · intro hne
    cases hl : (mgetD s.userRedoStacks U []).getLast? with
    | none =>
      exact absurd (List.getLast?_eq_none_iff.mp hl) hne
    | some op =>
      have hred : redoUserOperation s U =
          ({ history := s.history ++ [op]
             userRedoStacks := mset s.userRedoStacks U
               (mgetD s.userRedoStacks U []).dropLast }, true) := by
        unfold redoUserOperation
        rw [hl]
      refine ⟨by simp [hred], op, hl, by simp [hred], ?_, ?_⟩
      · simp [hred, redoStackOf, mgetD, mget_mset_self]
      · intro V hV
        simp [hred, redoStackOf, mgetD, mget_mset_ne _ _ _ _ hV]
  · exact redoUserOperation_noop s U

theorem redo_appends_at_tail_witness :
    (redoUserOperation ⟨[opB, opC], [("A", [opA])]⟩ "A").2 = true ∧
    (redoUserOperation ⟨[opB, opC], [("A", [opA])]⟩ "A").1.history =
      [opB, opC, opA] :=
  ⟨((redo_appends_at_tail ⟨[opB, opC], [("A", [opA])]⟩ "A").1 (by decide)).1,
   by decide⟩

/-- C3: `addOperation op` appends `op` at the tail of `history`, makes
`op.userId`'s redo stack empty, and leaves every other user's redo stack
unchanged; it succeeds for any operation. -/
theorem add_appends_and_clears_author_redo (s : DrawingState) (op : Operation) :
    (addOperation s op).history = s.history ++ [op] ∧
    redoStackOf (addOperation s op) op.userId = [] ∧
    ∀ V, V ≠ op.userId → redoStackOf (addOperation s op) V = redoStackOf s V := by
  refine ⟨rfl, ?_, ?_⟩
  · simp [addOperation, redoStackOf, mgetD, mget_mdelete_self]
  · intro V hV
    simp [addOperation, redoStackOf, mgetD, mget_mdelete_ne _ _ _ hV]

theorem add_appends_and_clears_author_redo_witness :
    redoStackOf (addOperation ⟨[opB], [("A", [opA])]⟩ opB) "A" =
      redoStackOf ⟨[opB], [("A", [opA])]⟩ "A" :=
  (add_appends_and_clears_author_redo ⟨[opB], [("A", [opA])]⟩ opB).2.2 "A"
    (by decide)

/-- C6: after `clear`, the history snapshot is empty and every user's
redo stack is empty. -/
theorem clear_empties_everything (s : DrawingState) :
    getHistory (clearState s) = [] ∧ ∀ U, redoStackOf (clearState s) U = [] :=
  ⟨rfl, fun _ => rfl⟩

theorem flatten_sublist_of_sublist {l₁ l₂ : List (List Operation)} (h : l₁ <+ l₂) :
    l₁.flatten <+ l₂.flatten := by
  induction h with
  | slnil => exact List.Sublist.refl _
  | cons a _ ih =>
    simp only [List.flatten_cons]
    exact ih.trans (List.sublist_append_right a _)
  | cons₂ a _ ih =>
    simp only [List.flatten_cons]
    exact ih.append_left a

theorem mvals_mdelete_sublist (m : List (String × List Operation)) (k : String) :
    mvals (mdelete m k) <+ mvals m :=
  flatten_sublist_of_sublist ((List.filter_sublist m).map Prod.snd)

theorem mdelete_eq_self_of_not_mem (m : List (String × List Operation)) (k : String)
    (h : k ∉ m.map Prod.fst) : mdelete m k = m := by
  apply List.filter_eq_self.mpr
  intro p hp
  have : p.1 ≠ k := fun he => h (he ▸ List.mem_map_of_mem Prod.fst hp)
  simp [this]

theorem mdelete_cons_self {α : Type} (a : String) (v : α) (rest : List (String × α)) :
    mdelete ((a, v) :: rest) a = mdelete rest a := by
  simp [mdelete, List.filter_cons]

theorem mdelete_cons_ne {α : Type} (a : String) (v : α) (rest : List (String × α))
    (k : String) (h : a ≠ k) : mdelete ((a, v) :: rest) k = (a, v) :: mdelete rest k := by
  simp [mdelete, List.filter_cons, h]

theorem append_shuffle (a b c : List Operation) : a ++ (b ++ c) ~ b ++ (a ++ c) := by
  calc a ++ (b ++ c) = (a ++ b) ++ c := (List.append_assoc a b c).symm
    _ ~ (b ++ a) ++ c := List.perm_append_comm.append_right c
    _ = b ++ (a ++ c) := List.append_assoc b a c

theorem mvals_perm_decompose (m : List (String × List Operation)) (k : String)
    (hnd : (m.map Prod.fst).Nodup) :
    mvals m ~ mgetD m k [] ++ mvals (mdelete m k) := by
  induction m with
  | nil => simp [mvals, mdelete, mgetD]
  | cons p rest ih =>
    obtain ⟨a, v⟩ := p
    simp only [List.map_cons, List.nodup_cons] at hnd
    obtain ⟨ha, hnd'⟩ := hnd
    by_cases hak : a = k
    · subst hak
      have hdel : mdelete ((a, v) :: rest) a = rest :=
        (mdelete_cons_self a v rest).trans (mdelete_eq_self_of_not_mem rest a ha)
      rw [hdel]
      simp [mvals, mgetD]
    · have hdel : mdelete ((a, v) :: rest) k = (a, v) :: mdelete rest k := by
        simp [mdelete, List.filter_cons, hak]
      have hget : mgetD ((a, v) :: rest) k [] = mgetD rest k [] := by
        simp [mgetD, hak]
      rw [hdel, hget]
      calc mvals ((a, v) :: rest)
          = v ++ mvals rest := by simp [mvals]
        _ ~ v ++ (mgetD rest k [] ++ mvals (mdelete rest k)) :=
            (ih hnd').append_left v
        _ ~ mgetD rest k [] ++ (v ++ mvals (mdelete rest k)) :=
            append_shuffle v _ _
        _ = mgetD rest k [] ++ mvals ((a, v) :: mdelete rest k) := by simp [mvals]

theorem mvals_mset_perm (m : List (String × List Operation)) (k : String)
    (v : List Operation) (hnd : (m.map Prod.fst).Nodup) :
    mvals (mset m k v) ~ v ++ mvals (mdelete m k) := by
  induction m with
  | nil => simp [mset, mvals, mdelete]
  | cons p rest ih =>
    obtain ⟨a, w⟩ := p
    simp only [List.map_cons, List.nodup_cons] at hnd
    obtain ⟨ha, hnd'⟩ := hnd
    by_cases hak : a = k
    · subst hak
      have hdel : mdelete ((a, w) :: rest) a = rest :=
        (mdelete_cons_self a w rest).trans (mdelete_eq_self_of_not_mem rest a ha)
      rw [mset, if_pos rfl, hdel]
      simp [mvals]
    · have hdel : mdelete ((a, w) :: rest) k = (a, w) :: mdelete rest k :=
        mdelete_cons_ne a w rest k hak
      rw [mset, if_neg hak, hdel]
      calc mvals ((a, w) :: mset rest k v)
          = w ++ mvals (mset rest k v) := by simp [mvals]
        _ ~ w ++ (v ++ mvals (mdelete rest k)) := (ih hnd').append_left w
        _ ~ v ++ (w ++ mvals (mdelete rest k)) := append_shuffle w v _
        _ = v ++ mvals ((a, w) :: mdelete rest k) := by simp [mvals]

theorem mem_keys_mset (m : List (String × List Operation)) (k : String)
    (v : List Operation) (x : String) (h : x ∈ (mset m k v).map Prod.fst) :
    x ∈ m.map Prod.fst ∨ x = k := by
  induction m with
  | nil => simpa [mset] using h
  | cons p rest ih =>
    by_cases hak : p.1 = k
    · rw [mset, if_pos hak] at h
      simp only [List.map_cons] at h ⊢
      rcases List.mem_cons.mp h with rfl | hm
      · exact Or.inr rfl
      · exact Or.inl (List.mem_cons.mpr (Or.inr hm))
    · rw [mset, if_neg hak] at h
      simp only [List.map_cons] at h ⊢
      rcases List.mem_cons.mp h with rfl | hm
      · exact Or.inl (List.mem_cons.mpr (Or.inl rfl))
      · rcases ih hm with hm' | rfl
        · exact Or.inl (List.mem_cons.mpr (Or.inr hm'))
        · exact Or.inr rfl

theorem keys_mset_nodup (m : List (String × List Operation)) (k : String)
    (v : List Operation) (hnd : (m.map Prod.fst).Nodup) :
    ((mset m k v).map Prod.fst).Nodup := by
  induction m with
  | nil => simp [mset]
  | cons p rest ih =>
    simp only [List.map_cons, List.nodup_cons] at hnd
    obtain ⟨ha, hnd'⟩ := hnd
    by_cases hak : p.1 = k
    · rw [mset, if_pos hak]
      simp only [List.map_cons]
      exact List.nodup_cons.mpr ⟨hak ▸ ha, hnd'⟩
    · rw [mset, if_neg hak]
      simp only [List.map_cons, List.nodup_cons]
      refine ⟨?_, ih hnd'⟩
      intro hmem
      rcases mem_keys_mset rest k v p.1 hmem with hm | rfl
      · exact ha hm
      · exact hak rfl

theorem stateOk_addOperation {s : DrawingState} (hok : StateOk s)
    {op : Operation} (hfresh : op ∉ allOps s) : StateOk (addOperation s op) := by
  obtain ⟨hnd, hkeys⟩ := hok
  constructor
  · have hD : mvals (mdelete s.userRedoStacks op.userId) <+ mvals s.userRedoStacks :=
      mvals_mdelete_sublist _ _
    have hsub : s.history ++ mvals (mdelete s.userRedoStacks op.userId) <+ allOps s :=
      hD.append_left s.history
    have hnd' : (s.history ++ mvals (mdelete s.userRedoStacks op.userId)).Nodup :=
      hnd.sublist hsub
    have hperm : allOps (addOperation s op) ~
        op :: (s.history ++ mvals (mdelete s.userRedoStacks op.userId)) := by
      simp only [allOps, addOperation, List.append_assoc, List.singleton_append]
      exact List.perm_middle
    refine hperm.nodup_iff.mpr (List.nodup_cons.mpr ⟨?_, hnd'⟩)
    exact fun hm => hfresh (hsub.subset hm)
  · exact hkeys.sublist ((List.filter_sublist _).map Prod.fst)

theorem stateOk_undo {s : DrawingState} (hok : StateOk s) (u : String) :
    StateOk ((undoUserOperation s u).1) := by
  obtain ⟨hnd, hkeys⟩ := hok
  cases hr : removeLastBy s.history u with
  | none => simpa [undoUserOperation, hr] using And.intro hnd hkeys
  | some pr =>
    obtain ⟨op, rest⟩ := pr
    obtain ⟨l₁, l₂, he, hrest, _, _⟩ := removeLastBy_some s.history u op rest hr
    have hstate : (undoUserOperation s u).1 =
        ⟨rest, mset s.userRedoStacks u (mgetD s.userRedoStacks u [] ++ [op])⟩ := by
      simp [undoUserOperation, hr]
    rw [hstate]
    constructor
    · have h1 : mvals (mset s.userRedoStacks u (mgetD s.userRedoStacks u [] ++ [op])) ~
          (mgetD s.userRedoStacks u [] ++ [op]) ++ mvals (mdelete s.userRedoStacks u) :=
        mvals_mset_perm _ _ _ hkeys
      have h2 : mvals s.userRedoStacks ~
          mgetD s.userRedoStacks u [] ++ mvals (mdelete s.userRedoStacks u) :=
        mvals_perm_decompose _ _ hkeys
      have hA' : rest ++ mvals (mset s.userRedoStacks u
          (mgetD s.userRedoStacks u [] ++ [op])) ~
          op :: (rest ++ (mgetD s.userRedoStacks u [] ++
            mvals (mdelete s.userRedoStacks u))) := by
        calc rest ++ mvals (mset s.userRedoStacks u (mgetD s.userRedoStacks u [] ++ [op]))
            ~ rest ++ ((mgetD s.userRedoStacks u [] ++ [op]) ++
                mvals (mdelete s.userRedoStacks u)) := h1.append_left rest
          _ = rest ++ (mgetD s.userRedoStacks u [] ++
                (op :: mvals (mdelete s.userRedoStacks u))) := by
              simp [List.append_assoc]
          _ ~ rest ++ (op :: (mgetD s.userRedoStacks u [] ++
                mvals (mdelete s.userRedoStacks u))) :=
              List.Perm.append_left rest List.perm_middle
          _ ~ op :: (rest ++ (mgetD s.userRedoStacks u [] ++
                mvals (mdelete s.userRedoStacks u))) := List.perm_middle
      have hA : allOps s ~
          op :: (rest ++ (mgetD s.userRedoStacks u [] ++
            mvals (mdelete s.userRedoStacks u))) := by
        calc allOps s
            = (l₁ ++ op :: l₂) ++ mvals s.userRedoStacks := by rw [allOps, he]
          _ ~ (op :: (l₁ ++ l₂)) ++ mvals s.userRedoStacks :=
              List.perm_middle.append_right _
          _ = op :: ((l₁ ++ l₂) ++ mvals s.userRedoStacks) := rfl
          _ ~ op :: ((l₁ ++ l₂) ++ (mgetD s.userRedoStacks u [] ++
                mvals (mdelete s.userRedoStacks u))) :=
              List.Perm.cons op (h2.append_left _)
          _ = op :: (rest ++ (mgetD s.userRedoStacks u [] ++
                mvals (mdelete s.userRedoStacks u))) := by rw [hrest]
      exact (hA'.trans hA.symm).nodup_iff.mpr hnd
    · exact keys_mset_nodup _ _ _ hkeys

theorem stateOk_redo {s : DrawingState} (hok : StateOk s) (u : String) :
    StateOk ((redoUserOperation s u).1) := by
  obtain ⟨hnd, hkeys⟩ := hok
  cases hl : (mgetD s.userRedoStacks u []).getLast? with
  | none => simpa [redoUserOperation, hl] using And.intro hnd hkeys
  | some op =>
    have hg : (mgetD s.userRedoStacks u []).dropLast ++ [op] =
        mgetD s.userRedoStacks u [] := List.dropLast_append_getLast? op hl
    have hstate : (redoUserOperation s u).1 =
        ⟨s.history ++ [op], mset s.userRedoStacks u
          (mgetD s.userRedoStacks u []).dropLast⟩ := by
      unfold redoUserOperation
      rw [hl]
    rw [hstate]
    constructor
    · have h1 : mvals (mset s.userRedoStacks u (mgetD s.userRedoStacks u []).dropLast) ~
          (mgetD s.userRedoStacks u []).dropLast ++ mvals (mdelete s.userRedoStacks u) :=
        mvals_mset_perm _ _ _ hkeys
      have h2 : mvals s.userRedoStacks ~
          mgetD s.userRedoStacks u [] ++ mvals (mdelete s.userRedoStacks u) :=
        mvals_perm_decompose _ _ hkeys
      have hA' : (s.history ++ [op]) ++ mvals (mset s.userRedoStacks u
          (mgetD s.userRedoStacks u []).dropLast) ~
          op :: (s.history ++ ((mgetD s.userRedoStacks u []).dropLast ++
            mvals (mdelete s.userRedoStacks u))) := by
        calc (s.history ++ [op]) ++ mvals (mset s.userRedoStacks u
              (mgetD s.userRedoStacks u []).dropLast)
            ~ (s.history ++ [op]) ++ ((mgetD s.userRedoStacks u []).dropLast ++
                mvals (mdelete s.userRedoStacks u)) := h1.append_left _
          _ = s.history ++ (op :: ((mgetD s.userRedoStacks u []).dropLast ++
                mvals (mdelete s.userRedoStacks u))) := by
              simp [List.append_assoc]
          _ ~ op :: (s.history ++ ((mgetD s.userRedoStacks u []).dropLast ++
                mvals (mdelete s.userRedoStacks u))) := List.perm_middle
      have hA : allOps s ~
          op :: (s.history ++ ((mgetD s.userRedoStacks u []).dropLast ++
            mvals (mdelete s.userRedoStacks u))) := by
        calc allOps s
            = s.history ++ mvals s.userRedoStacks := rfl
          _ ~ s.history ++ (mgetD s.userRedoStacks u [] ++
                mvals (mdelete s.userRedoStacks u)) := h2.append_left _
          _ = s.history ++ (((mgetD s.userRedoStacks u []).dropLast ++ [op]) ++
                mvals (mdelete s.userRedoStacks u)) := by rw [hg]
          _ = s.history ++ ((mgetD s.userRedoStacks u []).dropLast ++
                (op :: mvals (mdelete s.userRedoStacks u))) := by
              simp [List.append_assoc]
          _ ~ s.history ++ (op :: ((mgetD s.userRedoStacks u []).dropLast ++
                mvals (mdelete s.userRedoStacks u))) :=
              List.Perm.append_left s.history List.perm_middle
          _ ~ op :: (s.history ++ ((mgetD s.userRedoStacks u []).dropLast ++
                mvals (mdelete s.userRedoStacks u))) := List.perm_middle
      exact (hA'.trans hA.symm).nodup_iff.mpr hnd
    · exact keys_mset_nodup _ _ _ hkeys

theorem stateOk_run : ∀ (acts : List LogAction) (s : DrawingState),
    StateOk s → freshTrace s acts = true → StateOk (runActions s acts) := by
  intro acts
  induction acts with
  | nil => intro s h _; exact h
  | cons a rest ih =>
    intro s hok hf
    cases a with
    | append op =>
      simp only [freshTrace, Bool.and_eq_true] at hf
      obtain ⟨h1, h2⟩ := hf
      have hok' : StateOk (applyAction s (LogAction.append op)) :=
        stateOk_addOperation hok (of_decide_eq_true h1)
      simpa [runActions] using ih (applyAction s (LogAction.append op)) hok' h2
    | undo u =>
      simp only [freshTrace, Bool.and_eq_true, true_and] at hf
      simpa [runActions] using
        ih (applyAction s (LogAction.undo u)) (stateOk_undo hok u) hf
    | redo u =>
      simp only [freshTrace, Bool.and_eq_true, true_and] at hf
      simpa [runActions] using
        ih (applyAction s (LogAction.redo u)) (stateOk_redo hok u) hf
    | clear =>
      simp only [freshTrace, Bool.and_eq_true, true_and] at hf
      have hok' : StateOk (applyAction s LogAction.clear) :=
        ⟨by simp [applyAction, clearState, allOps, mvals],
         by simp [applyAction, clearState, stackKeys]⟩
      simpa [runActions] using ih (applyAction s LogAction.clear) hok' hf

/-- C4: starting from the empty log, after any finite sequence of
append/undo/redo/clear actions in which each appended operation is
fresh, no operation sits both in the history and in some user's redo
stack, and the history has no duplicate operation. -/
theorem fresh_trace_no_duplication (acts : List LogAction)
    (h : freshTrace DrawingState.init acts = true) :
    (∀ op ∈ (runActions DrawingState.init acts).history,
       ∀ entry ∈ (runActions DrawingState.init acts).userRedoStacks,
         op ∉ entry.2) ∧
    (runActions DrawingState.init acts).history.Nodup := by
  have hok : StateOk (runActions DrawingState.init acts) :=
    stateOk_run acts DrawingState.init
      ⟨by simp [allOps, mvals, DrawingState.init],
       by simp [stackKeys, DrawingState.init]⟩ h
  obtain ⟨hnd, -⟩ := hok
  rw [allOps, List.nodup_append] at hnd
  obtain ⟨h1, _, hdisj⟩ := hnd
  refine ⟨?_, h1⟩
  intro op hop entry hentry hmem
  exact hdisj hop (List.mem_flatten.mpr
    ⟨entry.2, List.mem_map_of_mem Prod.snd hentry, hmem⟩)

theorem fresh_trace_no_duplication_witness :
    (runActions DrawingState.init [LogAction.append opA, LogAction.append opB,
       LogAction.undo "A", LogAction.append opC, LogAction.redo "A"]).history.Nodup :=
  (fresh_trace_no_duplication
    [LogAction.append opA, LogAction.append opB, LogAction.undo "A",
     LogAction.append opC, LogAction.redo "A"] (by decide)).2

/-- C7 (amended): for a roomId with no room in the registry,
`request-undo`, `request-redo` and `clear-canvas` are silently dropped
(state unchanged, nothing emitted); `draw` leaves the state unchanged
and creates no room, but still emits its `new-draw-operation` broadcast,
because that emit sits outside the room-existence check. -/
theorem unknown_room_behaviour (st : ServerState) (roomId : String)
    (h : mget st.rooms roomId = none) :
    (∀ userId, handleRequestUndo st roomId userId = (st, [])) ∧
    (∀ userId, handleRequestRedo st roomId userId = (st, [])) ∧
    handleClearCanvas st roomId = (st, []) ∧
    (∀ userId x0 y0 x1 y1 c w now,
      (handleDraw st roomId userId x0 y0 x1 y1 c w now).1 = st ∧
      (handleDraw st roomId userId x0 y0 x1 y1 c w now).2 =
        [OutMsg.newDrawOperation roomId userId x0 y0 x1 y1 c w]) := by
  refine ⟨fun u => ?_, fun u => ?_, ?_, fun u a b c' d e f g => ⟨?_, ?_⟩⟩ <;>
    simp [handleRequestUndo, handleRequestRedo, handleClearCanvas, handleDraw, h]

theorem unknown_room_behaviour_witness :
    handleClearCanvas ServerState.init "room1" = (ServerState.init, []) :=
  (unknown_room_behaviour ServerState.init "room1" rfl).2.2.1

/-- C7 counterexample: a `draw` event for a roomId with no room still
emits a broadcast, so the claim that no broadcast message is emitted for
any mutating event on an unknown room is false. -/
theorem unknown_room_draw_still_broadcasts :
    mget ServerState.init.rooms "room1" = none ∧
    (handleDraw ServerState.init "room1" "u1" 0 0 1 1 "#000000" 2 0).2 ≠ [] :=
  ⟨rfl, by decide⟩

theorem userLookup_mset (rooms : List (String × RoomState)) (roomId : String)
    (room room' : RoomState) (h : mget rooms roomId = some room)
    (husers : room'.users = room.users) (rid uid : String) :
    userLookup (mset rooms roomId room') rid uid = userLookup rooms rid uid := by
  by_cases hr : rid = roomId
  · subst hr
    simp [userLookup, mget_mset_self, h, husers]
  · simp [userLookup, mget_mset_ne rooms roomId rid room' hr]

theorem disconnectRoomEntry_key (sid : String) (e : String × RoomState)
    (p : String × RoomState) (h : disconnectRoomEntry sid e = some p) :
    p.1 = e.1 ∧ roomAfterDisconnect sid e.2 = some p.2 := by
  unfold disconnectRoomEntry at h
  cases hr : roomAfterDisconnect sid e.2 with
  | none => rw [hr] at h; cases h
  | some r =>
    rw [hr] at h
    simp only [Option.map_some', Option.some.injEq] at h
    subst h
    exact ⟨rfl, by simp [hr]⟩

theorem disconnectRoomEntry_none (sid : String) (e : String × RoomState)
    (h : disconnectRoomEntry sid e = none) :
    roomAfterDisconnect sid e.2 = none := by
  unfold disconnectRoomEntry at h
  cases hr : roomAfterDisconnect sid e.2 with
  | none => rfl
  | some r => rw [hr] at h; cases h

theorem mget_filterMap_disconnect_none (sid : String) :
    ∀ (l : List (String × RoomState)) (x : String), x ∉ l.map Prod.fst →
    mget (l.filterMap (disconnectRoomEntry sid)) x = none := by
  intro l
  induction l with
  | nil => intro x _; rfl
  | cons e rest ih =>
    intro x hx
    simp only [List.map_cons, List.mem_cons, not_or] at hx
    obtain ⟨hx1, hx2⟩ := hx
    rw [List.filterMap_cons]
    cases hd : disconnectRoomEntry sid e with
    | none => exact ih x hx2
    | some p =>
      obtain ⟨hp, -⟩ := disconnectRoomEntry_key sid e p hd
      have hpx : ¬(p.1 = x) := by rw [hp]; exact fun hh => hx1 hh.symm
      simp [hpx, ih x hx2]

theorem mget_filterMap_disconnect (sid : String) :
    ∀ (l : List (String × RoomState)), (l.map Prod.fst).Nodup → ∀ (A : String),
    mget (l.filterMap (disconnectRoomEntry sid)) A =
      (mget l A).bind (roomAfterDisconnect sid) := by
  intro l
  induction l with
  | nil => intro _ A; rfl
  | cons e rest ih =>
    intro hnd A
    simp only [List.map_cons, List.nodup_cons] at hnd
    obtain ⟨he, hnd'⟩ := hnd
    rw [List.filterMap_cons]
    by_cases hA : e.1 = A
    · subst hA
      cases hd : disconnectRoomEntry sid e with
      | some p =>
        obtain ⟨hp, hr⟩ := disconnectRoomEntry_key sid e p hd
        simp [hp, hr]
      | none =>
        have hr := disconnectRoomEntry_none sid e hd
        simp [hr, mget_filterMap_disconnect_none sid rest e.1 he]
    · cases hd : disconnectRoomEntry sid e with
      | some p =>
        obtain ⟨hp, -⟩ := disconnectRoomEntry_key sid e p hd
        have hpA : ¬(p.1 = A) := hp ▸ hA
        simp [hpA, hA, ih hnd' A]
      | none => simp [hA, ih hnd' A]

theorem disconnectStep_rooms (sid : String)
    (acc : List (String × RoomState) × List (String × String) × List OutMsg)
    (e : String × RoomState) :
    (disconnectStep sid acc e).1 =
      acc.1 ++ (disconnectRoomEntry sid e).toList := by
  unfold disconnectStep disconnectRoomEntry roomAfterDisconnect
  cases hf : e.2.users.find? (fun p => decide (p.2.socketId = sid)) with
  | none => simp
  | some u =>
    by_cases hlen : (mdelete e.2.users u.1).length = 0
    · simp [hlen]
    · simp [hlen]

theorem foldl_disconnect_rooms (sid : String) :
    ∀ (l : List (String × RoomState))
      (acc : List (String × RoomState) × List (String × String) × List OutMsg),
    (l.foldl (disconnectStep sid) acc).1 =
      acc.1 ++ l.filterMap (disconnectRoomEntry sid) := by
  intro l
  induction l with
  | nil => intro acc; simp
  | cons e rest ih =>
    intro acc
    rw [List.foldl_cons, ih, disconnectStep_rooms, List.filterMap_cons]
    cases hd : disconnectRoomEntry sid e <;> simp [List.append_assoc]

/-- C10: a `join-room` for room `B` leaves every other room's registry
entry (users, cursors and log) untouched; `draw`, `cursor-move`,
`request-undo`, `request-redo` and `clear-canvas` never change any
room's user membership; only the `disconnect` handler removes the
matching user (and drops the room exactly when its users map becomes
empty, as captured by `roomAfterDisconnect`). -/
theorem membership_changes_only_on_disconnect :
    (∀ (st : ServerState) (socketId B userId userName A : String), A ≠ B →
      mget (handleJoinRoom st socketId B userId userName).1.rooms A =
        mget st.rooms A) ∧
    (∀ (st : ServerState) (roomId userId : String) (x0 y0 x1 y1 : Int)
       (c : String) (w : Int) (now : Nat) (rid uid : String),
      userLookup (handleDraw st roomId userId x0 y0 x1 y1 c w now).1.rooms rid uid =
        userLookup st.rooms rid uid) ∧
    (∀ (st : ServerState) (roomId userId : String) (x y : Int) (rid uid : String),
      userLookup (handleCursorMove st roomId userId x y).1.rooms rid uid =
        userLookup st.rooms rid uid) ∧
    (∀ (st : ServerState) (roomId userId rid uid : String),
      userLookup (handleRequestUndo st roomId userId).1.rooms rid uid =
        userLookup st.rooms rid uid) ∧
    (∀ (st : ServerState) (roomId userId rid uid : String),
      userLookup (handleRequestRedo st roomId userId).1.rooms rid uid =
        userLookup st.rooms rid uid) ∧
    (∀ (st : ServerState) (roomId rid uid : String),
      userLookup (handleClearCanvas st roomId).1.rooms rid uid =
        userLookup st.rooms rid uid) ∧
    (∀ (st : ServerState) (socketId A : String), (st.rooms.map Prod.fst).Nodup →
      mget (handleDisconnect st socketId).1.rooms A =
        (mget st.rooms A).bind (roomAfterDisconnect socketId)) := by
  refine ⟨?_, ?_, ?_, ?_, ?_, ?_, ?_⟩
  · intro st socketId B userId userName A hAB
    have h1 : mget (mset (roomsWithRoom st B) B
        (joinedRoom st socketId B userId userName)) A =
        mget (roomsWithRoom st B) A :=
      mget_mset_ne _ _ _ _ hAB
    have h2 : mget (roomsWithRoom st B) A = mget st.rooms A := by
      unfold roomsWithRoom
      by_cases hs : (mget st.rooms B).isSome
      · rw [if_pos hs]
      · rw [if_neg hs]
        exact mget_mset_ne _ _ _ _ hAB
    exact (h1.trans h2 : _)
  · intro st roomId userId x0 y0 x1 y1 c w now rid uid
    cases h : mget st.rooms roomId with
    | none => simp [handleDraw, h]
    | some room =>
      simp only [handleDraw, h]
      refine userLookup_mset st.rooms roomId room _ h ?_ rid uid
      rfl
  · intro st roomId userId x y rid uid
    cases h : mget st.rooms roomId with
    | none => simp [handleCursorMove, h]
    | some room =>
      simp only [handleCursorMove, h]
      refine userLookup_mset st.rooms roomId room _ h ?_ rid uid
      rfl
  · intro st roomId userId rid uid
    cases h : mget st.rooms roomId with
    | none => simp [handleRequestUndo, h]
    | some room =>
      simp only [handleRequestUndo, h]
      refine userLookup_mset st.rooms roomId room _ h ?_ rid uid
      rfl
  · intro st roomId userId rid uid
    cases h : mget st.rooms roomId with
    | none => simp [handleRequestRedo, h]
    | some room =>
      simp only [handleRequestRedo, h]
      refine userLookup_mset st.rooms roomId room _ h ?_ rid uid
      rfl
  · intro st roomId rid uid
    cases h : mget st.rooms roomId with
    | none => simp [handleClearCanvas, h]
    | some room =>
      simp only [handleClearCanvas, h]
      refine userLookup_mset st.rooms roomId room _ h ?_ rid uid
      rfl
  · intro st socketId A hnd
    have hr : (handleDisconnect st socketId).1.rooms =
        st.rooms.filterMap (disconnectRoomEntry socketId) := by
      show (st.rooms.foldl (disconnectStep socketId) ([], st.userColors, [])).1 = _
      rw [foldl_disconnect_rooms]
      exact List.nil_append _
    rw [hr]
    exact mget_filterMap_disconnect socketId st.rooms hnd A

theorem membership_changes_only_on_disconnect_witness :
    mget (handleJoinRoom c10State "s9" "B" "bob" "Bob").1.rooms "A" =
      mget c10State.rooms "A" ∧
    mget (handleDisconnect c10State "sock1").1.rooms "A" =
      (mget c10State.rooms "A").bind (roomAfterDisconnect "sock1") :=
  ⟨membership_changes_only_on_disconnect.1 c10State "s9" "B" "bob" "Bob" "A"
     (by decide),
   membership_changes_only_on_disconnect.2.2.2.2.2.2 c10State "sock1" "A"
     (by decide)⟩

/-- C8 (amended): `request-undo` and `request-redo` on an existing room
do not consult the room's users map: they apply the log's per-user
undo/redo for the named userId unconditionally, so they have no effect
exactly when the log holds nothing for that user (no history operation
for undo, an empty redo stack for redo) — even a departed user's
operations can still be undone by userId. -/
theorem undo_redo_ignore_membership (st : ServerState) (roomId userId : String)
    (room : RoomState) (h : mget st.rooms roomId = some room) :
    (handleRequestUndo st roomId userId).1 =
      { st with
          rooms := mset st.rooms roomId
            (roomWithDS room (undoUserOperation room.drawingState userId).1) } ∧
    (handleRequestRedo st roomId userId).1 =
      { st with
          rooms := mset st.rooms roomId
            (roomWithDS room (redoUserOperation room.drawingState userId).1) } ∧
    ((∀ op ∈ room.drawingState.history, op.userId ≠ userId) →
      (handleRequestUndo st roomId userId).1 =
        { st with rooms := mset st.rooms roomId room }) ∧
    (redoStackOf room.drawingState userId = [] →
      (handleRequestRedo st roomId userId).1 =
        { st with rooms := mset st.rooms roomId room }) := by
  refine ⟨?_, ?_, ?_, ?_⟩
  · simp [handleRequestUndo, h, roomWithDS]
  · simp [handleRequestRedo, h, roomWithDS]
  · intro hno
    have := undoUserOperation_noop room.drawingState userId hno
    simp [handleRequestUndo, h, this]
  · intro hno
    have := redoUserOperation_noop room.drawingState userId hno
    simp [handleRequestRedo, h, this]

theorem undo_redo_ignore_membership_witness :
    (handleRequestUndo c8State "r" "A").1 =
      { c8State with
          rooms := mset c8State.rooms "r"
            (roomWithDS c8Room (undoUserOperation c8Room.drawingState "A").1) } :=
  (undo_redo_ignore_membership c8State "r" "A" c8Room rfl).1

/-- C8 counterexample: room `"r"` exists, user `"A"` is not in its users
map, yet `request-undo` for `"A"` changes the room's state (it removes
the departed user's operation from the history), so the claim that the
event has no effect is false. -/
theorem absent_user_undo_still_mutates :
    mget c8State.rooms "r" = some c8Room ∧
    mget c8Room.users "A" = none ∧
    (handleRequestUndo c8State "r" "A").1 ≠ c8State := by
  refine ⟨rfl, rfl, ?_⟩
  decide

/-- C9: the color assigned on `join-room` is
`palette[count-after-insertion mod paletteSize]`; in particular the
first user of a fresh room receives `palette[1]`. -/
theorem join_color_assignment (st : ServerState)
    (socketId roomId userId userName : String) :
    mget (handleJoinRoom st socketId roomId userId userName).1.userColors userId =
      some (colors.getD
        ((joinedRoom st socketId roomId userId userName).users.length %
          colors.length) "") ∧
    (mget st.rooms roomId = none →
      mget (handleJoinRoom st socketId roomId userId userName).1.userColors userId =
        some (colors.getD 1 "")) := by
  constructor
  · simp [handleJoinRoom, mget_mset_self]
  · intro h
    have hjr : (joinedRoom st socketId roomId userId userName).users =
        [(userId, ⟨socketId, userName⟩)] := by
      simp [joinedRoom, roomsWithRoom, h, mgetD, mget_mset_self, mset,
        RoomState.init]
    simp [handleJoinRoom, mget_mset_self, hjr, colors]

theorem join_color_assignment_witness :
    mget (handleJoinRoom ServerState.init "s1" "room1" "u1" "Alice").1.userColors
      "u1" = some (colors.getD 1 "") :=
  (join_color_assignment ServerState.init "s1" "room1" "u1" "Alice").2 rfl

end Canvas
